import Mathlib

/-!
Verification of the syntax-tree union/deconfliction engine in
`src/spinning_wheel/ast_extensions.py`.

The Python module operates on `ast` trees via `ast.NodeTransformer`
subclasses.  The shallow embedding below models the statement-level shape of
those trees (the spec's Statement Node Model, §3): import statements carry an
ordered alias list, definition statements carry a name and a body of nested
statements, and every other statement kind is an `other` node with an opaque
tag and a body of nested statements.  Every node carries the optional
`lineno` / `end_lineno` attributes as `Option Int` (`none` models a missing
attribute, as read by `getattr(node, "lineno", None)`).

Python `NodeTransformer` semantics embedded here:
  * `visit` dispatches on the node's class; a class without a `visit_X`
    handler falls through to `generic_visit`, which visits each child
    statement list, drops `None` results and splices list results.
  * A visit returning `None` is modelled as `[]`, a single node as a
    singleton list, and a list as itself; `generic_visit` child rewriting is
    then a flat `++` of the children's visit results.
  * The mutable dedup state of a transformer object (`self._observed_*`)
    becomes an explicit state value threaded through the traversal.
-/

structure Alias where
  name : String
  asname : Option String
deriving DecidableEq, Repr

/-- Key used by `ImportNodeDeduplicator`: the `(name.name, name.asname)`
tuple of an `ast.alias`. -/
abbrev ImportKey := String × Option String

/-- Statement node model of the Python `ast` tree, at the granularity the
merger operates on.  `other` stands for any statement kind the engine does
not handle specially; its `body` holds the nested statements that
`generic_visit` still traverses, and `tag` its otherwise opaque payload. -/
inductive Node where
  | module (body : List Node)
  | importNode (names : List Alias) (lineno endLineno : Option Int)
  | importFrom (module : Option String) (names : List Alias) (level : Option Int)
      (lineno endLineno : Option Int)
  | functionDef (name : String) (body : List Node) (lineno endLineno : Option Int)
  | asyncFunctionDef (name : String) (body : List Node) (lineno endLineno : Option Int)
  | classDef (name : String) (body : List Node) (lineno endLineno : Option Int)
  | other (tag : String) (body : List Node) (lineno endLineno : Option Int)
deriving Repr

/-- Child statement list of a node (`node.body`; `[]` for nodes whose
children are not statements). -/
def Node.body : Node → List Node
  | .module b => b
  | .importNode _ _ _ => []
  | .importFrom _ _ _ _ _ => []
  | .functionDef _ b _ _ => b
  | .asyncFunctionDef _ b _ _ => b
  | .classDef _ b _ _ => b
  | .other _ b _ _ => b

/-- The `getattr(node, "lineno", None)` read. `ast.Module` has no position. -/
def Node.lineno : Node → Option Int
  | .module _ => none
  | .importNode _ l _ => l
  | .importFrom _ _ _ l _ => l
  | .functionDef _ _ l _ => l
  | .asyncFunctionDef _ _ l _ => l
  | .classDef _ _ l _ => l
  | .other _ _ l _ => l

/-- The `getattr(node, "end_lineno", None)` read. -/
def Node.endLineno : Node → Option Int
  | .module _ => none
  | .importNode _ _ e => e
  | .importFrom _ _ _ _ e => e
  | .functionDef _ _ _ e => e
  | .asyncFunctionDef _ _ _ e => e
  | .classDef _ _ _ e => e
  | .other _ _ _ e => e

/-- Rebuild a node with a replaced child statement list (what
`generic_visit` does after rewriting the children). -/
def Node.withBody : Node → List Node → Node
  | .module _, b => .module b
  | .importNode ns l e, _ => .importNode ns l e
  | .importFrom m ns lv l e, _ => .importFrom m ns lv l e
  | .functionDef n _ l e, b => .functionDef n b l e
  | .asyncFunctionDef n _ l e, b => .asyncFunctionDef n b l e
  | .classDef n _ l e, b => .classDef n b l e
  | .other t _ l e, b => .other t b l e

mutual
/-- Embeds `copy.deepcopy` on a tree: a structurally equal tree whose
storage is fresh (in the pure embedding, the structural copy itself). -/
def deepcopy : Node → Node
  | .module b => .module (deepcopyList b)
  | .importNode ns l e => .importNode ns l e
  | .importFrom m ns lv l e => .importFrom m ns lv l e
  | .functionDef n b l e => .functionDef n (deepcopyList b) l e
  | .asyncFunctionDef n b l e => .asyncFunctionDef n (deepcopyList b) l e
  | .classDef n b l e => .classDef n (deepcopyList b) l e
  | .other t b l e => .other t (deepcopyList b) l e
def deepcopyList : List Node → List Node
  | [] => []
  | n :: ns => deepcopy n :: deepcopyList ns
end

mutual
/-- Embeds `ImportNodeFlattener.visit`:
`visit_Import` returns `[ast.Import([ast.alias(n.name, n.asname)]) for n in node.names]`
and `visit_ImportFrom` returns
`[ast.ImportFrom(node.module, [ast.alias(n.name, n.asname)]) for n in node.names]`
(the rebuilt nodes carry no `lineno`/`end_lineno`, and the rebuilt
`ImportFrom` is constructed without the `level` argument, so its `level`
attribute is unset).  Every other node kind falls through to
`generic_visit`. -/
def ImportNodeFlattener.visit : Node → List Node
  | .importNode ns _ _ => ns.map (fun a => .importNode [a] none none)
  | .importFrom m ns _ _ _ => ns.map (fun a => .importFrom m [a] none none none)
  | .module b => [.module (ImportNodeFlattener.visitList b)]
  | .functionDef n b l e => [.functionDef n (ImportNodeFlattener.visitList b) l e]
  | .asyncFunctionDef n b l e => [.asyncFunctionDef n (ImportNodeFlattener.visitList b) l e]
  | .classDef n b l e => [.classDef n (ImportNodeFlattener.visitList b) l e]
  | .other t b l e => [.other t (ImportNodeFlattener.visitList b) l e]
/-- Child-list traversal of `generic_visit` for `ImportNodeFlattener`. -/
def ImportNodeFlattener.visitList : List Node → List Node
  | [] => []
  | n :: ns => ImportNodeFlattener.visit n ++ ImportNodeFlattener.visitList ns
end

/-- Embeds `ImportNodeDeduplicator._remove_duplicate_aliases`'s filtering
loop over `node.names` against `self._observed_name_tuples`: returns the
filtered alias list and the updated observed set (the set is modelled as a
list with membership semantics). -/
def ImportNodeDeduplicator.removeDuplicateAliasesFrom :
    List ImportKey → List Alias → List Alias × List ImportKey
  | s, [] => ([], s)
  | s, a :: rest =>
    if (a.name, a.asname) ∈ s then
      ImportNodeDeduplicator.removeDuplicateAliasesFrom s rest
    else
      let p := ImportNodeDeduplicator.removeDuplicateAliasesFrom ((a.name, a.asname) :: s) rest
      (a :: p.1, p.2)

mutual
/-- Embeds `ImportNodeDeduplicator.visit`: `visit_Import`/`visit_ImportFrom`
filter the alias list and return the node (with `node.names` replaced) when
some alias survived, else `None`.  Every other node kind falls through to
`generic_visit`. -/
def ImportNodeDeduplicator.visit : List ImportKey → Node → List Node × List ImportKey
  | s, .importNode ns l e =>
    let p := ImportNodeDeduplicator.removeDuplicateAliasesFrom s ns
    (if p.1.isEmpty then [] else [.importNode p.1 l e], p.2)
  | s, .importFrom m ns lv l e =>
    let p := ImportNodeDeduplicator.removeDuplicateAliasesFrom s ns
    (if p.1.isEmpty then [] else [.importFrom m p.1 lv l e], p.2)
  | s, .module b =>
    let p := ImportNodeDeduplicator.visitList s b
    ([.module p.1], p.2)
  | s, .functionDef n b l e =>
    let p := ImportNodeDeduplicator.visitList s b
    ([.functionDef n p.1 l e], p.2)
  | s, .asyncFunctionDef n b l e =>
    let p := ImportNodeDeduplicator.visitList s b
    ([.asyncFunctionDef n p.1 l e], p.2)
  | s, .classDef n b l e =>
    let p := ImportNodeDeduplicator.visitList s b
    ([.classDef n p.1 l e], p.2)
  | s, .other t b l e =>
    let p := ImportNodeDeduplicator.visitList s b
    ([.other t p.1 l e], p.2)
/-- Child-list traversal of `generic_visit` for `ImportNodeDeduplicator`. -/
def ImportNodeDeduplicator.visitList : List ImportKey → List Node → List Node × List ImportKey
  | s, [] => ([], s)
  | s, n :: ns =>
    let p1 := ImportNodeDeduplicator.visit s n
    let p2 := ImportNodeDeduplicator.visitList p1.2 ns
    (p1.1 ++ p2.1, p2.2)
end

mutual
/-- Embeds `ClassAndFunctionDeduplicator.visit`: `visit_FunctionDef`,
`visit_AsyncFunctionDef` and `visit_ClassDef` all call
`_node_or_none_if_exists`, which drops the node when `node.name` is in
`self._observed_names` and otherwise records the name and returns the node
unchanged (no `generic_visit`, so a kept definition's body is not entered).
Every other node kind falls through to `generic_visit`. -/
def ClassAndFunctionDeduplicator.visit : List String → Node → List Node × List String
  | s, .functionDef n b l e =>
    if n ∈ s then ([], s) else ([.functionDef n b l e], n :: s)
  | s, .asyncFunctionDef n b l e =>
    if n ∈ s then ([], s) else ([.asyncFunctionDef n b l e], n :: s)
  | s, .classDef n b l e =>
    if n ∈ s then ([], s) else ([.classDef n b l e], n :: s)
  | s, .module b =>
    let p := ClassAndFunctionDeduplicator.visitList s b
    ([.module p.1], p.2)
  | s, .importNode ns l e => ([.importNode ns l e], s)
  | s, .importFrom m ns lv l e => ([.importFrom m ns lv l e], s)
  | s, .other t b l e =>
    let p := ClassAndFunctionDeduplicator.visitList s b
    ([.other t p.1 l e], p.2)
/-- Child-list traversal of `generic_visit` for `ClassAndFunctionDeduplicator`. -/
def ClassAndFunctionDeduplicator.visitList : List String → List Node → List Node × List String
  | s, [] => ([], s)
  | s, n :: ns =>
    let p1 := ClassAndFunctionDeduplicator.visit s n
    let p2 := ClassAndFunctionDeduplicator.visitList p1.2 ns
    (p1.1 ++ p2.1, p2.2)
end

/-- Python truthiness of an optional integer attribute: `None` and `0` are
falsy, every other integer is truthy. -/
def pyTruthy : Option Int → Bool
  | none => false
  | some v => v != 0

/-- One evaluation of the lambda in `LineRangeRemover.visit`:
`removal_range[0] <= boundary <= removal_range[1] if boundary else False`. -/
def LineRangeRemover.boundaryHit (r : Int × Int) (b : Option Int) : Bool :=
  match b with
  | none => false
  | some v => if v != 0 then decide (r.1 ≤ v) && decide (v ≤ r.2) else false

/-- The removal decision of `LineRangeRemover.visit`: the outer
`if node_start or node_end:` guard, then `any(...)` over both boundaries
for some configured range. -/
def LineRangeRemover.rangeHit (ranges : List (Int × Int)) (ls le : Option Int) : Bool :=
  (pyTruthy ls || pyTruthy le) &&
    ranges.any (fun r => LineRangeRemover.boundaryHit r ls || LineRangeRemover.boundaryHit r le)

mutual
/-- Embeds `LineRangeRemover.visit`, which overrides `visit` itself: read
`lineno`/`end_lineno`, return `None` when some boundary hits some removal
range, otherwise fall through to `generic_visit`. -/
def LineRangeRemover.visit (ranges : List (Int × Int)) : Node → List Node
  | .module b =>
    if LineRangeRemover.rangeHit ranges none none then []
    else [.module (LineRangeRemover.visitList ranges b)]
  | .importNode ns l e =>
    if LineRangeRemover.rangeHit ranges l e then [] else [.importNode ns l e]
  | .importFrom m ns lv l e =>
    if LineRangeRemover.rangeHit ranges l e then [] else [.importFrom m ns lv l e]
  | .functionDef n b l e =>
    if LineRangeRemover.rangeHit ranges l e then []
    else [.functionDef n (LineRangeRemover.visitList ranges b) l e]
  | .asyncFunctionDef n b l e =>
    if LineRangeRemover.rangeHit ranges l e then []
    else [.asyncFunctionDef n (LineRangeRemover.visitList ranges b) l e]
  | .classDef n b l e =>
    if LineRangeRemover.rangeHit ranges l e then []
    else [.classDef n (LineRangeRemover.visitList ranges b) l e]
  | .other t b l e =>
    if LineRangeRemover.rangeHit ranges l e then []
    else [.other t (LineRangeRemover.visitList ranges b) l e]
/-- Child-list traversal of `generic_visit` for `LineRangeRemover` (each
child again goes through the overridden `visit`). -/
def LineRangeRemover.visitList (ranges : List (Int × Int)) : List Node → List Node
  | [] => []
  | n :: ns => LineRangeRemover.visit ranges n ++ LineRangeRemover.visitList ranges ns
end

/-- A transformer object as held by `CompositeNodeTransformer`: its class
together with its current mutable dedup state. -/
inductive Transformer where
  | importNodeFlattener
  | importNodeDeduplicator (observed : List ImportKey)
  | classAndFunctionDeduplicator (observed : List String)
  | lineRangeRemover (ranges : List (Int × Int))

/-- Dispatch `node_visitor.visit(collected_node)` for one transformer
object, returning its output nodes and the transformer with its updated
state. -/
def Transformer.visit : Transformer → Node → List Node × Transformer
  | .importNodeFlattener, nd => (ImportNodeFlattener.visit nd, .importNodeFlattener)
  | .importNodeDeduplicator s, nd =>
    let p := ImportNodeDeduplicator.visit s nd
    (p.1, .importNodeDeduplicator p.2)
  | .classAndFunctionDeduplicator s, nd =>
    let p := ClassAndFunctionDeduplicator.visit s nd
    (p.1, .classAndFunctionDeduplicator p.2)
  | .lineRangeRemover rs, nd => (LineRangeRemover.visit rs nd, .lineRangeRemover rs)

/-- Inner loop of `CompositeNodeTransformer.visit` for one stage: visit each
collected node, skip falsy outputs (`None` and the empty list), splice list
outputs, append single nodes.  With outputs modelled as lists this is a
stateful flat append. -/
def CompositeNodeTransformer.visitCollected :
    Transformer → List Node → List Node × Transformer
  | t, [] => ([], t)
  | t, n :: ns =>
    let p := t.visit n
    let q := CompositeNodeTransformer.visitCollected p.2 ns
    (p.1 ++ q.1, q.2)

/-- Outer loop of `CompositeNodeTransformer.visit`: feed the whole working
set through each transformer in sequence. -/
def CompositeNodeTransformer.runStages :
    List Transformer → List Node → List Node × List Transformer
  | [], collected => (collected, [])
  | t :: ts, collected =>
    let p := CompositeNodeTransformer.visitCollected t collected
    let q := CompositeNodeTransformer.runStages ts p.1
    (q.1, p.2 :: q.2)

/-- Embeds `CompositeNodeTransformer.visit`:
`return collected_nodes if len(collected_nodes) > 1 else collected_nodes[0]`.
`Sum.inl` is the multi-node list return, `Sum.inr` the single-node return,
and `none` models the `IndexError` raised by `collected_nodes[0]` when the
working list has become empty. -/
def CompositeNodeTransformer.visit (ts : List Transformer) (nd : Node) :
    Option (List Node ⊕ Node) × List Transformer :=
  let r := CompositeNodeTransformer.runStages ts [nd]
  (match r.1 with
   | [] => none
   | [single] => some (Sum.inr single)
   | ns => some (Sum.inl ns), r.2)

/-- Embeds `union_and_deconflict_modules`.  Steps, as in the source: deep
copy both inputs; if the (truthy, i.e. nonempty) range tuple is supplied,
run `LineRangeRemover` over the reference copy — an `ast.Module` carries no
position, so the module object always survives that visit, which is why the
in-place Python call leaves `cloned_reference` bound to the rewritten
module, modelled by `headD`; build `ast.Module([], [])` extended with both
bodies; run the composite transformer `[flattener, import deduplicator,
definition deduplicator]` (each freshly constructed with empty observed
state) over it; return the (in-place rewritten) unioned module.  A `Module`
survives every stage as a single node, so only the `Sum.inr` arm of the
final match is ever taken; the other arms return the module the same
variable would still denote in Python. -/
def union_and_deconflict_modules (primary_module reference_module : Node)
    (reference_ranges_to_remove : Option (List (Int × Int))) : Node :=
  let cloned_primary := deepcopy primary_module
  let cloned_reference := deepcopy reference_module
  let pruned_reference :=
    match reference_ranges_to_remove with
    | some (r0 :: rs) =>
      (LineRangeRemover.visit (r0 :: rs) cloned_reference).headD cloned_reference
    | _ => cloned_reference
  let unioned_body := cloned_primary.body ++ pruned_reference.body
  let transformers : List Transformer :=
    [.importNodeFlattener, .importNodeDeduplicator [], .classAndFunctionDeduplicator []]
  match (CompositeNodeTransformer.visit transformers (Node.module unioned_body)).1 with
  | some (Sum.inr m) => m
  | some (Sum.inl _) => Node.module unioned_body
  | none => Node.module unioned_body

/-- Object-store model of one call to `union_and_deconflict_modules`, used
to state the non-mutation (frame) property.  A cell of the store is one
tree owned by someone; `pIdx`/`rIdx` are the caller's two trees.  The call
reads those cells, allocates fresh cells for `deepcopy(primary_module)`,
`deepcopy(reference_module)` and the unioned module (appends), and every
in-place `NodeTransformer` rewrite is a write to the cell being visited
(`List.set` at the clone or union index).  Since `deepcopy` shares no
storage with its argument, whole-tree cells are the right granularity: no
write ever targets the caller's cells.  (The union cell's rewrite also
aliases into the clone cells in Python; the clone cells are dead after the
union body is built, so that sharing is not tracked.)  Returns the final
store and the index of the merged tree. -/
def mergeCall (store : List Node) (pIdx rIdx : Nat)
    (reference_ranges_to_remove : Option (List (Int × Int))) : List Node × Nat :=
  let pVal := (store.get? pIdx).getD (Node.module [])
  let rVal := (store.get? rIdx).getD (Node.module [])
  let cpIdx := store.length
  let crIdx := store.length + 1
  let uIdx := store.length + 2
  let store2 := store ++ [deepcopy pVal, deepcopy rVal]
  let store3 :=
    match reference_ranges_to_remove with
    | some (r0 :: rs) =>
      let crVal := (store2.get? crIdx).getD (Node.module [])
      store2.set crIdx ((LineRangeRemover.visit (r0 :: rs) crVal).headD crVal)
    | _ => store2
  let uVal := Node.module
    (((store3.get? cpIdx).getD (Node.module [])).body ++
      ((store3.get? crIdx).getD (Node.module [])).body)
  let store4 := store3 ++ [uVal]
  let transformers : List Transformer :=
    [.importNodeFlattener, .importNodeDeduplicator [], .classAndFunctionDeduplicator []]
  let uCur := (store4.get? uIdx).getD (Node.module [])
  let uFinal :=
    match (CompositeNodeTransformer.visit transformers uCur).1 with
    | some (Sum.inr m) => m
    | some (Sum.inl _) => uCur
    | none => uCur
  (store4.set uIdx uFinal, uIdx)

/-- Names contributed by one node to the top-level definition listing:
`[name]` for the three definition kinds, `[]` otherwise. -/
def topNameOf : Node → List String
  | .functionDef n _ _ _ => [n]
  | .asyncFunctionDef n _ _ _ => [n]
  | .classDef n _ _ _ => [n]
  | _ => []

/-- Names of the function/class definitions appearing directly in a
statement list (not nested inside any statement). -/
def topDefNames : List Node → List String
  | [] => []
  | n :: ns => topNameOf n ++ topDefNames ns

mutual
/-- Whether a definition (of any of the three kinds) named `n` occurs
anywhere in the tree, at any nesting depth. -/
def containsDefNamed (n : String) : Node → Bool
  | .module b => containsDefNamedList n b
  | .importNode _ _ _ => false
  | .importFrom _ _ _ _ _ => false
  | .functionDef m b _ _ => m == n || containsDefNamedList n b
  | .asyncFunctionDef m b _ _ => m == n || containsDefNamedList n b
  | .classDef m b _ _ => m == n || containsDefNamedList n b
  | .other _ b _ _ => containsDefNamedList n b
def containsDefNamedList (n : String) : List Node → Bool
  | [] => false
  | x :: xs => containsDefNamed n x || containsDefNamedList n xs
end

/-- Import keys of one alias list, in order. -/
def aliasKeys (ns : List Alias) : List ImportKey :=
  ns.map (fun a => (a.name, a.asname))

mutual
/-- All import keys carried by import-family nodes anywhere in the tree,
in traversal order. -/
def allImportKeys : Node → List ImportKey
  | .module b => allImportKeysList b
  | .importNode ns _ _ => aliasKeys ns
  | .importFrom _ ns _ _ _ => aliasKeys ns
  | .functionDef _ b _ _ => allImportKeysList b
  | .asyncFunctionDef _ b _ _ => allImportKeysList b
  | .classDef _ b _ _ => allImportKeysList b
  | .other _ b _ _ => allImportKeysList b
def allImportKeysList : List Node → List ImportKey
  | [] => []
  | x :: xs => allImportKeys x ++ allImportKeysList xs
end

mutual
/-- Number of definitions named `n` in the tree, at any nesting depth. -/
def countDefsNamed (n : String) : Node → Nat
  | .module b => countDefsNamedList n b
  | .importNode _ _ _ => 0
  | .importFrom _ _ _ _ _ => 0
  | .functionDef m b _ _ => (if m = n then 1 else 0) + countDefsNamedList n b
  | .asyncFunctionDef m b _ _ => (if m = n then 1 else 0) + countDefsNamedList n b
  | .classDef m b _ _ => (if m = n then 1 else 0) + countDefsNamedList n b
  | .other _ b _ _ => countDefsNamedList n b
def countDefsNamedList (n : String) : List Node → Nat
  | [] => 0
  | x :: xs => countDefsNamed n x + countDefsNamedList n xs
end

/-- Relative-import level attribute of a node (`none` when the attribute is
unset or the node is not an `ImportFrom`). -/
def Node.importLevel : Node → Option Int
  | .importFrom _ _ lv _ _ => lv
  | _ => none

/-- Reference body after the optional pre-union `LineRangeRemover` pass:
the rewrite happens only when the supplied range tuple is truthy
(nonempty), matching `if reference_ranges_to_remove:`. -/
def prunedReferenceBody (reference_ranges_to_remove : Option (List (Int × Int)))
    (rb : List Node) : List Node :=
  match reference_ranges_to_remove with
  | some (r0 :: rs) => LineRangeRemover.visitList (r0 :: rs) rb
  | _ => rb

/-- The two halves of the merged statement sequence: the pipeline survivors
of the primary body, and those of the (possibly pruned) reference body
processed with the dedup states left by the primary half. -/
def mergedParts (pb rbp : List Node) : List Node × List Node :=
  let fp := ImportNodeFlattener.visitList pb
  let fr := ImportNodeFlattener.visitList rbp
  let q1 := ImportNodeDeduplicator.visitList [] fp
  let q2 := ImportNodeDeduplicator.visitList q1.2 fr
  let d1 := ClassAndFunctionDeduplicator.visitList [] q1.1
  let d2 := ClassAndFunctionDeduplicator.visitList d1.2 q2.1
  (d1.1, d2.1)

/-- Spec §8 cross-kind collision scenario, primary side: `def func1`,
`class Class1`, `import os`, with parse positions. -/
def c1Primary : Node := .module
  [ .functionDef "func1" [.other "pass" [] (some 1) (some 1)] (some 1) (some 1)
  , .classDef "Class1" [.other "pass_primary" [] (some 2) (some 2)] (some 2) (some 2)
  , .importNode [⟨"os", none⟩] (some 3) (some 3) ]

/-- Spec §8 cross-kind collision scenario, reference side: `def func2`,
duplicate `class Class1`, `import sys`. -/
def c1Reference : Node := .module
  [ .functionDef "func2" [.other "pass" [] (some 1) (some 1)] (some 1) (some 1)
  , .classDef "Class1" [.other "pass_reference" [] (some 2) (some 2)] (some 2) (some 2)
  , .importNode [⟨"sys", none⟩] (some 3) (some 3) ]

/-- A from-import with an explicit nonzero relative level
(`from ..pkg import helper`, parse level 2). -/
def c2Input : Node := .importFrom (some "pkg") [⟨"helper", none⟩] (some 2) (some 4) (some 4)

/-- Self-merge input for the idempotence claim: a definition nested inside a
kept definition duplicates its name, and the only import sits inside a
duplicate-named top-level definition. -/
def c8Module : Node := .module
  [ .functionDef "f" [.functionDef "f" [] (some 2) (some 2)] (some 1) (some 3)
  , .functionDef "f" [.importNode [⟨"x", none⟩] (some 5) (some 5)] (some 4) (some 6) ]

/-- Primary body for the primary-precedence witness: defines `dup`. -/
def c4WitnessPrimary : List Node :=
  [ .functionDef "dup" [.other "primary_body" [] none none] (some 1) (some 2) ]

/-- Reference body for the primary-precedence witness: redefines `dup` and
adds a reference-only definition. -/
def c4WitnessReference : List Node :=
  [ .functionDef "dup" [.other "reference_body" [] none none] (some 1) (some 2)
  , .functionDef "only_ref" [] (some 3) (some 4) ]

/-- A two-cell caller store for the non-mutation witness. -/
def c3WitnessStore : List Node :=
  [ .module [.functionDef "g" [] (some 1) (some 1)]
  , .module [.functionDef "g" [] (some 1) (some 1), .importNode [⟨"os", none⟩] (some 2) (some 2)] ]

mutual
/-- Value-level identity of `deepcopy`: the copy is structurally equal to
its argument (freshness of storage is what the store model tracks). -/
theorem deepcopy_eq_self : ∀ n : Node, deepcopy n = n
  | .module b => by rw [deepcopy, deepcopyList_eq_self b]
  | .importNode ns l e => rfl
  | .importFrom m ns lv l e => rfl
  | .functionDef n b l e => by rw [deepcopy, deepcopyList_eq_self b]
  | .asyncFunctionDef n b l e => by rw [deepcopy, deepcopyList_eq_self b]
  | .classDef n b l e => by rw [deepcopy, deepcopyList_eq_self b]
  | .other t b l e => by rw [deepcopy, deepcopyList_eq_self b]
theorem deepcopyList_eq_self : ∀ l : List Node, deepcopyList l = l
  | [] => rfl
  | n :: ns => by rw [deepcopyList, deepcopy_eq_self n, deepcopyList_eq_self ns]
end

theorem topDefNames_append (a b : List Node) :
    topDefNames (a ++ b) = topDefNames a ++ topDefNames b := by
  induction a with
  | nil => simp [topDefNames]
  | cons x xs ih => simp [topDefNames, ih]

theorem containsDefNamedList_append (nm : String) (a b : List Node) :
    containsDefNamedList nm (a ++ b) =
      (containsDefNamedList nm a || containsDefNamedList nm b) := by
  induction a with
  | nil => simp [containsDefNamedList]
  | cons x xs ih => simp [containsDefNamedList, ih, Bool.or_assoc]

theorem allImportKeysList_append (a b : List Node) :
    allImportKeysList (a ++ b) = allImportKeysList a ++ allImportKeysList b := by
  induction a with
  | nil => simp [allImportKeysList]
  | cons x xs ih => simp [allImportKeysList, ih]

theorem flattener_visitList_append (a b : List Node) :
    ImportNodeFlattener.visitList (a ++ b) =
      ImportNodeFlattener.visitList a ++ ImportNodeFlattener.visitList b := by
  induction a with
  | nil => simp [ImportNodeFlattener.visitList]
  | cons x xs ih => simp [ImportNodeFlattener.visitList, ih]

theorem importDedup_visitList_append (s : List ImportKey) (a b : List Node) :
    ImportNodeDeduplicator.visitList s (a ++ b) =
      ((ImportNodeDeduplicator.visitList s a).1 ++
        (ImportNodeDeduplicator.visitList (ImportNodeDeduplicator.visitList s a).2 b).1,
       (ImportNodeDeduplicator.visitList (ImportNodeDeduplicator.visitList s a).2 b).2) := by
  induction a generalizing s with
  | nil => simp [ImportNodeDeduplicator.visitList]
  | cons x xs ih => simp [ImportNodeDeduplicator.visitList, ih]

theorem classFunctionDedup_visitList_append (s : List String) (a b : List Node) :
    ClassAndFunctionDeduplicator.visitList s (a ++ b) =
      ((ClassAndFunctionDeduplicator.visitList s a).1 ++
        (ClassAndFunctionDeduplicator.visitList (ClassAndFunctionDeduplicator.visitList s a).2 b).1,
       (ClassAndFunctionDeduplicator.visitList (ClassAndFunctionDeduplicator.visitList s a).2 b).2) := by
  induction a generalizing s with
  | nil => simp [ClassAndFunctionDeduplicator.visitList]
  | cons x xs ih => simp [ClassAndFunctionDeduplicator.visitList, ih]

theorem LineRangeRemover.visit_module (ranges : List (Int × Int)) (b : List Node) :
    LineRangeRemover.visit ranges (.module b) =
      [.module (LineRangeRemover.visitList ranges b)] := by
  simp [LineRangeRemover.visit, LineRangeRemover.rangeHit, pyTruthy]

theorem union_module_eq (pb rb : List Node) (cfg : Option (List (Int × Int))) :
    union_and_deconflict_modules (.module pb) (.module rb) cfg =
      .module (ClassAndFunctionDeduplicator.visitList []
        ((ImportNodeDeduplicator.visitList []
          (ImportNodeFlattener.visitList (pb ++ prunedReferenceBody cfg rb))).1)).1 := by
  match cfg with
  | none =>
    simp [union_and_deconflict_modules, deepcopy, deepcopyList_eq_self, prunedReferenceBody,
      CompositeNodeTransformer.visit, CompositeNodeTransformer.runStages,
      CompositeNodeTransformer.visitCollected, Transformer.visit, Node.body,
      ImportNodeFlattener.visit, ImportNodeDeduplicator.visit, ClassAndFunctionDeduplicator.visit]
  | some [] =>
    simp [union_and_deconflict_modules, deepcopy, deepcopyList_eq_self, prunedReferenceBody,
      CompositeNodeTransformer.visit, CompositeNodeTransformer.runStages,
      CompositeNodeTransformer.visitCollected, Transformer.visit, Node.body,
      ImportNodeFlattener.visit, ImportNodeDeduplicator.visit, ClassAndFunctionDeduplicator.visit]
  | some (r0 :: rs) =>
    simp [union_and_deconflict_modules, deepcopy, deepcopyList_eq_self, prunedReferenceBody,
      LineRangeRemover.visit_module,
      CompositeNodeTransformer.visit, CompositeNodeTransformer.runStages,
      CompositeNodeTransformer.visitCollected, Transformer.visit, Node.body,
      ImportNodeFlattener.visit, ImportNodeDeduplicator.visit, ClassAndFunctionDeduplicator.visit]

theorem topDefNames_map_importNode (ns : List Alias) :
    topDefNames (ns.map (fun a => Node.importNode [a] none none)) = [] := by
  induction ns with
  | nil => simp [topDefNames]
  | cons a rest ih => simp [topDefNames, topNameOf, ih]

theorem topDefNames_map_importFrom (m : Option String) (ns : List Alias) :
    topDefNames (ns.map (fun a => Node.importFrom m [a] none none none)) = [] := by
  induction ns with
  | nil => simp [topDefNames]
  | cons a rest ih => simp [topDefNames, topNameOf, ih]

/-- The Import Flattener never changes which definitions appear at the top
level of a statement list. -/
theorem topDefNames_flatten (l : List Node) :
    topDefNames (ImportNodeFlattener.visitList l) = topDefNames l := by
  induction l with
  | nil => simp [ImportNodeFlattener.visitList]
  | cons x xs ih =>
    cases x <;>
      simp [ImportNodeFlattener.visitList, ImportNodeFlattener.visit, topDefNames_append,
        topDefNames, topNameOf, topDefNames_map_importNode, topDefNames_map_importFrom, ih]

/-- The Import Deduplicator never changes which definitions appear at the
top level of a statement list. -/
theorem topDefNames_importDedup (s : List ImportKey) (l : List Node) :
    topDefNames (ImportNodeDeduplicator.visitList s l).1 = topDefNames l := by
  induction l generalizing s with
  | nil => simp [ImportNodeDeduplicator.visitList]
  | cons x xs ih =>
    cases x <;>
      simp only [ImportNodeDeduplicator.visitList, ImportNodeDeduplicator.visit,
        topDefNames_append, topDefNames, topNameOf, ih] <;>
      (try split) <;> simp [topDefNames, topNameOf, ih]

mutual
/-- The Definition Deduplicator's observed-name set only grows. -/
theorem cfd_mono : ∀ (s : List String) (n : Node),
    s ⊆ (ClassAndFunctionDeduplicator.visit s n).2
  | s, .functionDef n b l e => by
    by_cases h : n ∈ s <;> simp [ClassAndFunctionDeduplicator.visit, h]
  | s, .asyncFunctionDef n b l e => by
    by_cases h : n ∈ s <;> simp [ClassAndFunctionDeduplicator.visit, h]
  | s, .classDef n b l e => by
    by_cases h : n ∈ s <;> simp [ClassAndFunctionDeduplicator.visit, h]
  | s, .module b => by
    simpa [ClassAndFunctionDeduplicator.visit] using cfd_mono_list s b
  | s, .importNode ns l e => by simp [ClassAndFunctionDeduplicator.visit]
  | s, .importFrom m ns lv l e => by simp [ClassAndFunctionDeduplicator.visit]
  | s, .other t b l e => by
    simpa [ClassAndFunctionDeduplicator.visit] using cfd_mono_list s b
theorem cfd_mono_list : ∀ (s : List String) (l : List Node),
    s ⊆ (ClassAndFunctionDeduplicator.visitList s l).2
  | s, [] => by simp [ClassAndFunctionDeduplicator.visitList]
  | s, n :: ns => by
    have h1 := cfd_mono s n
    have h2 := cfd_mono_list (ClassAndFunctionDeduplicator.visit s n).2 ns
    simp only [ClassAndFunctionDeduplicator.visitList]
    exact h1.trans h2
end

/-- Any name that appears as a top-level definition of a statement list is
recorded in the Definition Deduplicator's state after the list is
processed, whether or not that definition was kept. -/
theorem cfd_state_mem_of_topDef (l : List Node) (s : List String) (nm : String)
    (h : nm ∈ topDefNames l) :
    nm ∈ (ClassAndFunctionDeduplicator.visitList s l).2 := by
  induction l generalizing s with
  | nil => simp [topDefNames] at h
  | cons x xs ih =>
    have hstep : nm ∈ (ClassAndFunctionDeduplicator.visit s x).2 →
        nm ∈ (ClassAndFunctionDeduplicator.visitList s (x :: xs)).2 := fun hx => by
      simp only [ClassAndFunctionDeduplicator.visitList]
      exact cfd_mono_list _ xs hx
    simp only [topDefNames, List.mem_append] at h
    rcases h with hx | hxs
    · apply hstep
      cases x <;> simp only [topNameOf, List.mem_singleton, List.not_mem_nil] at hx <;>
        [skip; skip; skip] <;> subst hx <;>
        rename_i b l e <;> by_cases hn : nm ∈ s <;>
        simp [ClassAndFunctionDeduplicator.visit, hn]
    · simp only [ClassAndFunctionDeduplicator.visitList]
      exact ih _ hxs

mutual
/-- A name recorded in the Definition Deduplicator's state was either
already recorded before the visit, or a definition carrying it was emitted
in the visit's output. -/
theorem cfd_contains_of_state : ∀ (s : List String) (n : Node) (nm : String),
    nm ∈ (ClassAndFunctionDeduplicator.visit s n).2 →
    nm ∈ s ∨ containsDefNamedList nm (ClassAndFunctionDeduplicator.visit s n).1 = true
  | s, .functionDef n b l e, nm => fun h => by
    by_cases hn : n ∈ s
    · left; simpa [ClassAndFunctionDeduplicator.visit, hn] using h
    · simp only [ClassAndFunctionDeduplicator.visit, hn, if_false] at h ⊢
      rcases List.mem_cons.mp h with rfl | hs
      · right; simp [containsDefNamedList, containsDefNamed]
      · left; exact hs
  | s, .asyncFunctionDef n b l e, nm => fun h => by
    by_cases hn : n ∈ s
    · left; simpa [ClassAndFunctionDeduplicator.visit, hn] using h
    · simp only [ClassAndFunctionDeduplicator.visit, hn, if_false] at h ⊢
      rcases List.mem_cons.mp h with rfl | hs
      · right; simp [containsDefNamedList, containsDefNamed]
      · left; exact hs
  | s, .classDef n b l e, nm => fun h => by
    by_cases hn : n ∈ s
    · left; simpa [ClassAndFunctionDeduplicator.visit, hn] using h
    · simp only [ClassAndFunctionDeduplicator.visit, hn, if_false] at h ⊢
      rcases List.mem_cons.mp h with rfl | hs
      · right; simp [containsDefNamedList, containsDefNamed]
      · left; exact hs
  | s, .module b, nm => fun h => by
    rcases cfd_contains_of_state_list s b nm
        (by simpa [ClassAndFunctionDeduplicator.visit] using h) with hs | hc
    · left; exact hs
    · right; simpa [ClassAndFunctionDeduplicator.visit, containsDefNamedList,
        containsDefNamed] using hc
  | s, .importNode ns l e, nm => fun h => by
    left; simpa [ClassAndFunctionDeduplicator.visit] using h
  | s, .importFrom m ns lv l e, nm => fun h => by
    left; simpa [ClassAndFunctionDeduplicator.visit] using h
  | s, .other t b l e, nm => fun h => by
    rcases cfd_contains_of_state_list s b nm
        (by simpa [ClassAndFunctionDeduplicator.visit] using h) with hs | hc
    · left; exact hs
    · right; simpa [ClassAndFunctionDeduplicator.visit, containsDefNamedList,
        containsDefNamed] using hc
theorem cfd_contains_of_state_list : ∀ (s : List String) (l : List Node) (nm : String),
    nm ∈ (ClassAndFunctionDeduplicator.visitList s l).2 →
    nm ∈ s ∨ containsDefNamedList nm (ClassAndFunctionDeduplicator.visitList s l).1 = true
  | s, [], nm => fun h => Or.inl (by simpa [ClassAndFunctionDeduplicator.visitList] using h)
  | s, x :: xs, nm => fun h => by
    have h0 : nm ∈ (ClassAndFunctionDeduplicator.visitList
        (ClassAndFunctionDeduplicator.visit s x).2 xs).2 := by
      simpa [ClassAndFunctionDeduplicator.visitList] using h
    rcases cfd_contains_of_state_list (ClassAndFunctionDeduplicator.visit s x).2 xs nm h0
        with hs1 | hc2
    · rcases cfd_contains_of_state s x nm hs1 with hs | hc1
      · left; exact hs
      · right
        simp only [ClassAndFunctionDeduplicator.visitList, containsDefNamedList_append]
        simp [hc1]
    · right
      simp only [ClassAndFunctionDeduplicator.visitList, containsDefNamedList_append]
      simp [hc2]
end

/-- Once a name is in the Definition Deduplicator's state, no later-visited
top-level definition with that name survives. -/
theorem cfd_topDefNames_not_mem (l : List Node) (s : List String) (nm : String)
    (h : nm ∈ s) :
    nm ∉ topDefNames (ClassAndFunctionDeduplicator.visitList s l).1 := by
  induction l generalizing s with
  | nil => simp [ClassAndFunctionDeduplicator.visitList, topDefNames]
  | cons x xs ih =>
    have htail := ih (ClassAndFunctionDeduplicator.visit s x).2 (cfd_mono s x h)
    simp only [ClassAndFunctionDeduplicator.visitList, topDefNames_append, List.mem_append]
    rintro (hhead | htl)
    · revert hhead
      cases x <;>
        simp only [ClassAndFunctionDeduplicator.visit] <;>
        (try split) <;>
        simp_all [topDefNames, topNameOf] <;>
        (rintro rfl; simp_all)
    · exact htail htl

/-- Top-level definitions surviving one Definition Deduplicator visit have
names that were not yet observed and are observed afterwards. -/
theorem cfd_visit_topDefNames_sub (s : List String) (x : Node) :
    ∀ nm ∈ topDefNames (ClassAndFunctionDeduplicator.visit s x).1,
      nm ∉ s ∧ nm ∈ (ClassAndFunctionDeduplicator.visit s x).2 := by
  cases x <;> simp only [ClassAndFunctionDeduplicator.visit] <;> (try split) <;>
    simp_all [topDefNames, topNameOf]

/-- After the Definition Deduplicator runs over a statement list, the
surviving top-level definitions have pairwise-distinct names, none of which
was in the incoming state. -/
theorem cfd_topDefNames_nodup (l : List Node) (s : List String) :
    (topDefNames (ClassAndFunctionDeduplicator.visitList s l).1).Nodup ∧
    ∀ nm ∈ topDefNames (ClassAndFunctionDeduplicator.visitList s l).1, nm ∉ s := by
  induction l generalizing s with
  | nil => simp [ClassAndFunctionDeduplicator.visitList, topDefNames]
  | cons x xs ih =>
    obtain ⟨ihn, ihm⟩ := ih (ClassAndFunctionDeduplicator.visit s x).2
    have hhead := cfd_visit_topDefNames_sub s x
    have hmono := cfd_mono s x
    simp only [ClassAndFunctionDeduplicator.visitList, topDefNames_append]
    constructor
    · rw [List.nodup_append]
      refine ⟨?_, ihn, fun a ha hb => ?_⟩
      · cases x <;> simp only [ClassAndFunctionDeduplicator.visit] <;> (try split) <;>
          simp [topDefNames, topNameOf]
      · exact (ihm a hb) ((hhead a ha).2)
    · intro nm hnm
      rcases List.mem_append.mp hnm with hh | ht
      · exact (hhead nm hh).1
      · exact fun hs => (ihm nm ht) (hmono hs)

/-- Facts about the alias-filtering loop: surviving keys are distinct, were
unobserved, and the observed set grows to include them. -/
theorem rda_facts (ns : List Alias) (s : List ImportKey) :
    (aliasKeys (ImportNodeDeduplicator.removeDuplicateAliasesFrom s ns).1).Nodup ∧
    (∀ k ∈ aliasKeys (ImportNodeDeduplicator.removeDuplicateAliasesFrom s ns).1, k ∉ s) ∧
    s ⊆ (ImportNodeDeduplicator.removeDuplicateAliasesFrom s ns).2 ∧
    (∀ k ∈ aliasKeys (ImportNodeDeduplicator.removeDuplicateAliasesFrom s ns).1,
      k ∈ (ImportNodeDeduplicator.removeDuplicateAliasesFrom s ns).2) := by
  induction ns generalizing s with
  | nil => simp [ImportNodeDeduplicator.removeDuplicateAliasesFrom, aliasKeys]
  | cons a rest ih =>
    by_cases hk : (a.name, a.asname) ∈ s
    · simpa [ImportNodeDeduplicator.removeDuplicateAliasesFrom, hk] using ih s
    · obtain ⟨ihn, ihm, ihsub, ihin⟩ := ih ((a.name, a.asname) :: s)
      simp only [ImportNodeDeduplicator.removeDuplicateAliasesFrom, hk, if_false,
        aliasKeys, List.map_cons]
      refine ⟨?_, ?_, ?_, ?_⟩
      · exact List.nodup_cons.mpr
          ⟨fun hmem => (ihm _ hmem) (List.mem_cons_self _ _), ihn⟩
      · intro k hkmem
        rcases List.mem_cons.mp hkmem with rfl | htl
        · exact hk
        · exact fun hs => (ihm _ htl) (List.mem_cons_of_mem _ hs)
      · exact (List.subset_cons_self _ _).trans ihsub
      · intro k hkmem
        rcases List.mem_cons.mp hkmem with rfl | htl
        · exact ihsub (List.mem_cons_self _ _)
        · exact ihin _ htl

mutual
/-- After one Import Deduplicator visit, the import keys remaining anywhere
in the output are pairwise distinct, were all unobserved on entry, and the
observed set grows to include them. -/
theorem ind_keys_facts : ∀ (s : List ImportKey) (n : Node),
    (allImportKeysList (ImportNodeDeduplicator.visit s n).1).Nodup ∧
    (∀ k ∈ allImportKeysList (ImportNodeDeduplicator.visit s n).1, k ∉ s) ∧
    s ⊆ (ImportNodeDeduplicator.visit s n).2 ∧
    (∀ k ∈ allImportKeysList (ImportNodeDeduplicator.visit s n).1,
      k ∈ (ImportNodeDeduplicator.visit s n).2)
  | s, .importNode ns l e => by
    obtain ⟨hn, hm, hsub, hin⟩ := rda_facts ns s
    simp only [ImportNodeDeduplicator.visit]
    split <;>
      simp_all [allImportKeysList, allImportKeys]
  | s, .importFrom m ns lv l e => by
    obtain ⟨hn, hm, hsub, hin⟩ := rda_facts ns s
    simp only [ImportNodeDeduplicator.visit]
    split <;>
      simp_all [allImportKeysList, allImportKeys]
  | s, .module b => by
    simpa [ImportNodeDeduplicator.visit, allImportKeysList, allImportKeys]
      using ind_keys_facts_list s b
  | s, .functionDef n b l e => by
    simpa [ImportNodeDeduplicator.visit, allImportKeysList, allImportKeys]
      using ind_keys_facts_list s b
  | s, .asyncFunctionDef n b l e => by
    simpa [ImportNodeDeduplicator.visit, allImportKeysList, allImportKeys]
      using ind_keys_facts_list s b
  | s, .classDef n b l e => by
    simpa [ImportNodeDeduplicator.visit, allImportKeysList, allImportKeys]
      using ind_keys_facts_list s b
  | s, .other t b l e => by
    simpa [ImportNodeDeduplicator.visit, allImportKeysList, allImportKeys]
      using ind_keys_facts_list s b
theorem ind_keys_facts_list : ∀ (s : List ImportKey) (l : List Node),
    (allImportKeysList (ImportNodeDeduplicator.visitList s l).1).Nodup ∧
    (∀ k ∈ allImportKeysList (ImportNodeDeduplicator.visitList s l).1, k ∉ s) ∧
    s ⊆ (ImportNodeDeduplicator.visitList s l).2 ∧
    (∀ k ∈ allImportKeysList (ImportNodeDeduplicator.visitList s l).1,
      k ∈ (ImportNodeDeduplicator.visitList s l).2)
  | s, [] => by simp [ImportNodeDeduplicator.visitList, allImportKeysList]
  | s, x :: xs => by
    obtain ⟨hn1, hm1, hsub1, hin1⟩ := ind_keys_facts s x
    obtain ⟨hn2, hm2, hsub2, hin2⟩ :=
      ind_keys_facts_list (ImportNodeDeduplicator.visit s x).2 xs
    simp only [ImportNodeDeduplicator.visitList, allImportKeysList_append]
    refine ⟨?_, ?_, ?_, ?_⟩
    · rw [List.nodup_append]
      exact ⟨hn1, hn2, fun k hk1 hk2 => (hm2 k hk2) (hin1 k hk1)⟩
    · intro k hk
      rcases List.mem_append.mp hk with h1 | h2
      · exact hm1 k h1
      · exact fun hs => (hm2 k h2) (hsub1 hs)
    · exact hsub1.trans hsub2
    · intro k hk
      rcases List.mem_append.mp hk with h1 | h2
      · exact hsub2 (hin1 k h1)
      · exact hin2 k h2
end

mutual
/-- The Definition Deduplicator only deletes whole statements, so the
keys of the imports in its output form a sublist of the input's keys. -/
theorem cfd_keys_sublist : ∀ (s : List String) (n : Node),
    List.Sublist (allImportKeysList (ClassAndFunctionDeduplicator.visit s n).1) (allImportKeys n)
  | s, .functionDef n b l e => by
    by_cases h : n ∈ s <;>
      simp [ClassAndFunctionDeduplicator.visit, h, allImportKeysList, allImportKeys]
  | s, .asyncFunctionDef n b l e => by
    by_cases h : n ∈ s <;>
      simp [ClassAndFunctionDeduplicator.visit, h, allImportKeysList, allImportKeys]
  | s, .classDef n b l e => by
    by_cases h : n ∈ s <;>
      simp [ClassAndFunctionDeduplicator.visit, h, allImportKeysList, allImportKeys]
  | s, .module b => by
    simpa [ClassAndFunctionDeduplicator.visit, allImportKeysList, allImportKeys]
      using cfd_keys_sublist_list s b
  | s, .importNode ns l e => by
    simp [ClassAndFunctionDeduplicator.visit, allImportKeysList, allImportKeys]
  | s, .importFrom m ns lv l e => by
    simp [ClassAndFunctionDeduplicator.visit, allImportKeysList, allImportKeys]
  | s, .other t b l e => by
    simpa [ClassAndFunctionDeduplicator.visit, allImportKeysList, allImportKeys]
      using cfd_keys_sublist_list s b
theorem cfd_keys_sublist_list : ∀ (s : List String) (l : List Node),
    List.Sublist (allImportKeysList (ClassAndFunctionDeduplicator.visitList s l).1) (allImportKeysList l)
  | s, [] => by simp [ClassAndFunctionDeduplicator.visitList, allImportKeysList]
  | s, x :: xs => by
    have h1 := cfd_keys_sublist s x
    have h2 := cfd_keys_sublist_list (ClassAndFunctionDeduplicator.visit s x).2 xs
    simp only [ClassAndFunctionDeduplicator.visitList, allImportKeysList_append,
      allImportKeysList]
    exact h1.append h2
end

/-- C4: the merged top-level sequence is the primary copy's survivors
followed by the (possibly range-pruned) reference copy's survivors, and a
definition name present in both inputs is retained from the primary half
while no reference-half top-level definition carries it. -/
theorem c4_primary_precedence (pb rb : List Node) (cfg : Option (List (Int × Int))) :
    union_and_deconflict_modules (.module pb) (.module rb) cfg =
      .module ((mergedParts pb (prunedReferenceBody cfg rb)).1 ++
        (mergedParts pb (prunedReferenceBody cfg rb)).2) ∧
    ∀ nm, nm ∈ topDefNames pb → nm ∈ topDefNames rb →
      containsDefNamedList nm (mergedParts pb (prunedReferenceBody cfg rb)).1 = true ∧
      nm ∉ topDefNames (mergedParts pb (prunedReferenceBody cfg rb)).2 := by
  constructor
  · rw [union_module_eq]
    simp [mergedParts, flattener_visitList_append,
      importDedup_visitList_append, classFunctionDedup_visitList_append]
  · intro nm hp _hr
    have h2 : nm ∈ topDefNames (ImportNodeDeduplicator.visitList []
        (ImportNodeFlattener.visitList pb)).1 := by
      rw [topDefNames_importDedup, topDefNames_flatten]; exact hp
    have h3 := cfd_state_mem_of_topDef
      (ImportNodeDeduplicator.visitList [] (ImportNodeFlattener.visitList pb)).1 [] nm h2
    refine ⟨?_, ?_⟩
    · rcases cfd_contains_of_state_list []
          (ImportNodeDeduplicator.visitList [] (ImportNodeFlattener.visitList pb)).1 nm h3
        with hs | hc
      · simp at hs
      · simpa [mergedParts] using hc
    · have hnot := cfd_topDefNames_not_mem
        (ImportNodeDeduplicator.visitList
          (ImportNodeDeduplicator.visitList [] (ImportNodeFlattener.visitList pb)).2
          (ImportNodeFlattener.visitList (prunedReferenceBody cfg rb))).1
        (ClassAndFunctionDeduplicator.visitList []
          (ImportNodeDeduplicator.visitList [] (ImportNodeFlattener.visitList pb)).1).2
        nm h3
      simpa [mergedParts] using hnot

/-- C4 witness: with `dup` defined on both sides, the primary half of the
merge keeps a definition named `dup` and the reference half's top level has
none. -/
theorem c4_primary_precedence_witness :
    containsDefNamedList "dup"
      (mergedParts c4WitnessPrimary (prunedReferenceBody none c4WitnessReference)).1 = true ∧
    "dup" ∉ topDefNames
      (mergedParts c4WitnessPrimary (prunedReferenceBody none c4WitnessReference)).2 :=
  (c4_primary_precedence c4WitnessPrimary c4WitnessReference none).2 "dup"
    (by decide) (by decide)

/-- C8 (amended): self-merge (indeed any merge) leaves pairwise-distinct
top-level definition names and pairwise-distinct import keys across the
whole merged tree — at most one survivor per name and per key. -/
theorem c8_self_merge_dedup (b : List Node) :
    (topDefNames (union_and_deconflict_modules (.module b) (deepcopy (.module b)) none).body).Nodup ∧
    (allImportKeys (union_and_deconflict_modules (.module b) (deepcopy (.module b)) none)).Nodup := by
  rw [deepcopy_eq_self, union_module_eq]
  simp only [prunedReferenceBody, Node.body, allImportKeys]
  constructor
  · exact (cfd_topDefNames_nodup _ []).1
  · have h1 := (ind_keys_facts_list [] (ImportNodeFlattener.visitList (b ++ b))).1
    have h2 := cfd_keys_sublist_list []
      (ImportNodeDeduplicator.visitList [] (ImportNodeFlattener.visitList (b ++ b))).1
    exact List.Nodup.sublist h2 h1

/-- C8 counterexample: for `c8Module`, self-merge leaves the uniquely named
definition `f` appearing twice (once top-level, once nested inside the kept
definition, which the Definition Deduplicator never enters), and the
module's distinct import key `("x", None)` appearing zero times (its only
occurrence sat inside the dropped duplicate of `f`) — not "exactly once"
for either. -/
theorem c8_self_merge_counterexample :
    (allImportKeys c8Module).count ("x", none) = 1 ∧
    countDefsNamed "f"
      (union_and_deconflict_modules c8Module (deepcopy c8Module) none) = 2 ∧
    (allImportKeys
      (union_and_deconflict_modules c8Module (deepcopy c8Module) none)).count ("x", none) = 0 := by
  decide

/-- C1 counterexample: on the spec's own cross-kind collision scenario the
merged tree has five top-level statements, not four. -/
theorem c1_cross_kind_counterexample :
    (union_and_deconflict_modules c1Primary c1Reference none).body.length = 5 ∧
    (union_and_deconflict_modules c1Primary c1Reference none).body.length ≠ 4 := by
  decide

/-- C1 (amended): the merge yields, in order, `func1`, the primary's
`Class1`, `import os`, `func2`, `import sys` — five survivors; only the
reference's duplicate `Class1` is dropped, while `import sys` survives
because its key does not collide with `import os` (the flattener also
rebuilds the import statements without their source positions). -/
theorem c1_cross_kind_merged :
    union_and_deconflict_modules c1Primary c1Reference none = .module
      [ .functionDef "func1" [.other "pass" [] (some 1) (some 1)] (some 1) (some 1)
      , .classDef "Class1" [.other "pass_primary" [] (some 2) (some 2)] (some 2) (some 2)
      , .importNode [⟨"os", none⟩] none none
      , .functionDef "func2" [.other "pass" [] (some 1) (some 1)] (some 1) (some 1)
      , .importNode [⟨"sys", none⟩] none none ] := rfl

/-- C2 counterexample: flattening a from-import with relative level 2
produces a statement whose `level` attribute is unset (`none`), not the
input's level — `ast.ImportFrom(node.module, [...])` omits the `level`
argument. -/
theorem c2_flattener_counterexample :
    ImportNodeFlattener.visit c2Input =
      [.importFrom (some "pkg") [⟨"helper", none⟩] none none none] ∧
    Node.importLevel (.importFrom (some "pkg") [⟨"helper", none⟩] none none none) ≠
      Node.importLevel c2Input :=
  ⟨rfl, by decide⟩

/-- C2 (amended): the flattener emits one statement per alias, in input
alias order, of the same kind, each with a singleton alias list, and — for
from-imports — the same module name but with the relative level left unset
rather than copied from the input. -/
theorem c2_flattener_characterization (ns : List Alias) (m : Option String)
    (lv : Option Int) (l e l2 e2 : Option Int) :
    ImportNodeFlattener.visit (.importNode ns l e) =
      ns.map (fun a => .importNode [a] none none) ∧
    ImportNodeFlattener.visit (.importFrom m ns lv l2 e2) =
      ns.map (fun a => .importFrom m [a] none none none) :=
  ⟨rfl, rfl⟩

/-- C9: `CompositeNodeTransformer.visit` is not total — a single import
node whose key the deduplicator has already observed is dropped by every
stage, the working list becomes empty, and `collected_nodes[0]` raises
`IndexError` (modelled as `none`) instead of returning an empty result. -/
theorem c9_composite_visit_not_total :
    (CompositeNodeTransformer.visit
      [.importNodeFlattener, .importNodeDeduplicator [("os", none)],
        .classAndFunctionDeduplicator []]
      (.importNode [⟨"os", none⟩] (some 1) (some 1))).1 = none := rfl

theorem boundaryHit_iff (r : Int × Int) (b : Option Int) :
    LineRangeRemover.boundaryHit r b = true ↔
      ∃ v, b = some v ∧ v ≠ 0 ∧ r.1 ≤ v ∧ v ≤ r.2 := by
  cases b with
  | none => simp [LineRangeRemover.boundaryHit]
  | some v =>
    by_cases hv : v = 0 <;>
      simp [LineRangeRemover.boundaryHit, hv, and_assoc]

theorem boundaryHit_truthy (r : Int × Int) (b : Option Int)
    (h : LineRangeRemover.boundaryHit r b = true) : pyTruthy b = true := by
  cases b with
  | none => simp [LineRangeRemover.boundaryHit] at h
  | some v =>
    by_cases hv : v = 0 <;>
      simp_all [LineRangeRemover.boundaryHit, pyTruthy]

theorem rangeHit_iff (ranges : List (Int × Int)) (ls le : Option Int) :
    LineRangeRemover.rangeHit ranges ls le = true ↔
      ∃ r ∈ ranges,
        (∃ v, ls = some v ∧ v ≠ 0 ∧ r.1 ≤ v ∧ v ≤ r.2) ∨
        (∃ v, le = some v ∧ v ≠ 0 ∧ r.1 ≤ v ∧ v ≤ r.2) := by
  simp only [LineRangeRemover.rangeHit, Bool.and_eq_true, List.any_eq_true,
    Bool.or_eq_true, boundaryHit_iff]
  constructor
  · rintro ⟨_, r, hr, hb⟩
    exact ⟨r, hr, hb⟩
  · rintro ⟨r, hr, hb⟩
    refine ⟨?_, r, hr, hb⟩
    rcases hb with hb | hb
    · exact Or.inl (boundaryHit_truthy r ls ((boundaryHit_iff r ls).mpr hb))
    · exact Or.inr (boundaryHit_truthy r le ((boundaryHit_iff r le).mpr hb))

/-- C5 (amended): a visited node is removed (without recursion) exactly
when one of its boundaries is defined with a nonzero value lying inside
some configured inclusive range; otherwise it is kept with its children
recursed.  In particular a node lacking both boundaries is never removed,
but — against the claim as stated — a defined boundary whose value is `0`
is treated as absent by the `if node_start or node_end` / `if boundary`
truthiness tests. -/
theorem c5_range_excluder_characterization (ranges : List (Int × Int)) (n : Node) :
    (LineRangeRemover.visit ranges n = [] ↔
      ∃ r ∈ ranges,
        (∃ v, n.lineno = some v ∧ v ≠ 0 ∧ r.1 ≤ v ∧ v ≤ r.2) ∨
        (∃ v, n.endLineno = some v ∧ v ≠ 0 ∧ r.1 ≤ v ∧ v ≤ r.2)) ∧
    (LineRangeRemover.visit ranges n ≠ [] →
      LineRangeRemover.visit ranges n =
        [n.withBody (LineRangeRemover.visitList ranges n.body)]) := by
  cases n <;>
    (constructor
     · rw [← rangeHit_iff]
       simp only [LineRangeRemover.visit, Node.lineno, Node.endLineno]
       split <;> simp_all
     · intro hne
       revert hne
       simp only [LineRangeRemover.visit, Node.lineno, Node.endLineno, Node.body,
         Node.withBody]
       split <;> simp_all [LineRangeRemover.visitList])

/-- C5 counterexample: a node whose start line is defined and equal to `0`,
with `0` inside the configured inclusive range `(-1, 1)`, is nevertheless
kept, because Python's truthiness test treats the boundary `0` as absent. -/
theorem c5_range_excluder_counterexample :
    (Node.other "stmt" [] (some 0) none).lineno = some 0 ∧
    ((-1 : Int) ≤ 0 ∧ (0 : Int) ≤ 1) ∧
    LineRangeRemover.visit [(-1, 1)] (.other "stmt" [] (some 0) none) =
      [.other "stmt" [] (some 0) none] :=
  ⟨rfl, by decide, rfl⟩

/-- C5 witness: a statement spanning lines 5–5 with ranges `[(2,4)]` is
kept and recursed; one spanning 3–3 is removed. -/
theorem c5_range_excluder_witness :
    LineRangeRemover.visit [(2, 4)]
        (.functionDef "f" [.other "pass" [] (some 5) (some 5)] (some 5) (some 5)) =
      [(Node.functionDef "f" [.other "pass" [] (some 5) (some 5)] (some 5) (some 5)).withBody
        (LineRangeRemover.visitList [(2, 4)]
          (Node.functionDef "f" [.other "pass" [] (some 5) (some 5)] (some 5) (some 5)).body)] ∧
    LineRangeRemover.visit [(2, 4)] (.other "stmt" [] (some 3) (some 3)) = [] :=
  ⟨(c5_range_excluder_characterization [(2, 4)]
      (.functionDef "f" [.other "pass" [] (some 5) (some 5)] (some 5) (some 5))).2
    (fun h => List.noConfusion h),
   (c5_range_excluder_characterization [(2, 4)]
      (.other "stmt" [] (some 3) (some 3))).1.mpr
    ⟨(2, 4), by decide, Or.inl ⟨3, rfl, by decide, by decide, by decide⟩⟩⟩

/-- C6: for a single-alias import-family node, the Import Deduplicator
drops the node (leaving the state unchanged) exactly when its
`(symbolName, localAlias)` key is already observed, and otherwise keeps
the node unchanged and records the key.  The observed state is the
explicit argument here; `union_and_deconflict_modules` constructs the
transformer with the empty state on every call. -/
theorem c6_import_dedup_iff (s : List ImportKey) (a : Alias) (m : Option String)
    (lv l e l2 e2 : Option Int) :
    (ImportNodeDeduplicator.visit s (.importNode [a] l e) = ([], s) ↔
      (a.name, a.asname) ∈ s) ∧
    ((a.name, a.asname) ∉ s →
      ImportNodeDeduplicator.visit s (.importNode [a] l e) =
        ([.importNode [a] l e], (a.name, a.asname) :: s)) ∧
    (ImportNodeDeduplicator.visit s (.importFrom m [a] lv l2 e2) = ([], s) ↔
      (a.name, a.asname) ∈ s) ∧
    ((a.name, a.asname) ∉ s →
      ImportNodeDeduplicator.visit s (.importFrom m [a] lv l2 e2) =
        ([.importFrom m [a] lv l2 e2], (a.name, a.asname) :: s)) ∧
    (∀ pb rb cfg, union_and_deconflict_modules (.module pb) (.module rb) cfg =
      .module (ClassAndFunctionDeduplicator.visitList []
        ((ImportNodeDeduplicator.visitList []
          (ImportNodeFlattener.visitList (pb ++ prunedReferenceBody cfg rb))).1)).1) := by
  refine ⟨?_, ?_, ?_, ?_, fun pb rb cfg => union_module_eq pb rb cfg⟩ <;>
    (by_cases h : (a.name, a.asname) ∈ s <;>
      simp [ImportNodeDeduplicator.visit, ImportNodeDeduplicator.removeDuplicateAliasesFrom, h])

/-- C6 witness: with `("os", None)` observed, `import os` is dropped with
the state unchanged; with the empty state it is kept and its key
recorded. -/
theorem c6_import_dedup_witness :
    ImportNodeDeduplicator.visit [("os", none)]
        (.importNode [⟨"os", none⟩] (some 1) (some 1)) = ([], [("os", none)]) ∧
    ImportNodeDeduplicator.visit [] (.importNode [⟨"os", none⟩] (some 1) (some 1)) =
      ([.importNode [⟨"os", none⟩] (some 1) (some 1)], [("os", none)]) :=
  ⟨(c6_import_dedup_iff [("os", none)] ⟨"os", none⟩ none none (some 1) (some 1)
      (some 1) (some 1)).1.mpr (by decide),
   (c6_import_dedup_iff [] ⟨"os", none⟩ none none (some 1) (some 1)
      (some 1) (some 1)).2.1 (by decide)⟩

/-- C7: the Definition Deduplicator drops a `FunctionDef`,
`AsyncFunctionDef` or `ClassDef` (body and all, state unchanged) exactly
when its name is in the one shared observed-name set, and otherwise keeps
it and records the name — so identically named definitions of different
kinds collide with each other. -/
theorem c7_definition_dedup_iff (s : List String) (nm : String) (b : List Node)
    (l e : Option Int) :
    (ClassAndFunctionDeduplicator.visit s (.functionDef nm b l e) = ([], s) ↔ nm ∈ s) ∧
    (nm ∉ s → ClassAndFunctionDeduplicator.visit s (.functionDef nm b l e) =
      ([.functionDef nm b l e], nm :: s)) ∧
    (ClassAndFunctionDeduplicator.visit s (.asyncFunctionDef nm b l e) = ([], s) ↔ nm ∈ s) ∧
    (nm ∉ s → ClassAndFunctionDeduplicator.visit s (.asyncFunctionDef nm b l e) =
      ([.asyncFunctionDef nm b l e], nm :: s)) ∧
    (ClassAndFunctionDeduplicator.visit s (.classDef nm b l e) = ([], s) ↔ nm ∈ s) ∧
    (nm ∉ s → ClassAndFunctionDeduplicator.visit s (.classDef nm b l e) =
      ([.classDef nm b l e], nm :: s)) := by
  by_cases h : nm ∈ s <;> simp [ClassAndFunctionDeduplicator.visit, h]

/-- C7 witness: a class named `dup` is dropped after a function named
`dup` was observed, and kept from the empty state. -/
theorem c7_definition_dedup_witness :
    ClassAndFunctionDeduplicator.visit ["dup"] (.classDef "dup" [] (some 1) (some 1)) =
      ([], ["dup"]) ∧
    ClassAndFunctionDeduplicator.visit [] (.functionDef "dup" [] (some 1) (some 1)) =
      ([.functionDef "dup" [] (some 1) (some 1)], ["dup"]) :=
  ⟨(c7_definition_dedup_iff ["dup"] "dup" [] (some 1) (some 1)).2.2.2.2.1.mpr (by decide),
   (c7_definition_dedup_iff [] "dup" [] (some 1) (some 1)).2.1 (by decide)⟩

/-- C10: a kept definition is returned with its body untouched (the stage
never calls `generic_visit` on it), and the observed set gains only the
kept definition's own name — nested definitions are neither dropped nor
recorded. -/
theorem c10_kept_definition_body_untouched (s : List String) (nm : String)
    (b : List Node) (l e : Option Int) (h : nm ∉ s) :
    ClassAndFunctionDeduplicator.visit s (.functionDef nm b l e) =
      ([.functionDef nm b l e], nm :: s) ∧
    ClassAndFunctionDeduplicator.visit s (.asyncFunctionDef nm b l e) =
      ([.asyncFunctionDef nm b l e], nm :: s) ∧
    ClassAndFunctionDeduplicator.visit s (.classDef nm b l e) =
      ([.classDef nm b l e], nm :: s) ∧
    (∀ x ∈ (ClassAndFunctionDeduplicator.visit s (.functionDef nm b l e)).2,
      x = nm ∨ x ∈ s) := by
  refine ⟨?_, ?_, ?_, fun x hx => ?_⟩
  · simp [ClassAndFunctionDeduplicator.visit, h]
  · simp [ClassAndFunctionDeduplicator.visit, h]
  · simp [ClassAndFunctionDeduplicator.visit, h]
  · have hstate : (ClassAndFunctionDeduplicator.visit s (.functionDef nm b l e)).2 = nm :: s := by
      simp [ClassAndFunctionDeduplicator.visit, h]
    rw [hstate] at hx
    exact List.mem_cons.mp hx

/-- C10 witness: a function whose body defines `inner` is kept with that
body intact, and `inner` is not recorded. -/
theorem c10_kept_definition_witness :
    ClassAndFunctionDeduplicator.visit [] (.functionDef "outer"
        [.functionDef "inner" [] (some 2) (some 2)] (some 1) (some 3)) =
      ([.functionDef "outer" [.functionDef "inner" [] (some 2) (some 2)] (some 1) (some 3)],
        ["outer"]) :=
  (c10_kept_definition_body_untouched [] "outer"
    [.functionDef "inner" [] (some 2) (some 2)] (some 1) (some 3) (by decide)).1

theorem store_get_append_lt {α : Type} (l rest : List α) (i : Nat) (h : i < l.length) :
    (l ++ rest).get? i = l.get? i := by
  induction l generalizing i with
  | nil => simp at h
  | cons x xs ih =>
    cases i with
    | zero => rfl
    | succ j => simpa using ih j (by simpa using h)

theorem store_get_append_add {α : Type} (l rest : List α) (k : Nat) :
    (l ++ rest).get? (l.length + k) = rest.get? k := by
  induction l with
  | nil => simp
  | cons x xs ih => simpa [Nat.succ_add] using ih

theorem store_set_append_add {α : Type} (l rest : List α) (k : Nat) (v : α) :
    (l ++ rest).set (l.length + k) v = l ++ rest.set k v := by
  induction l with
  | nil => simp
  | cons x xs ih => simp [Nat.succ_add, ih]

/-- Unfolded form of `mergeCall`: the final store is the caller's store
unchanged, extended by the primary clone, the (possibly pruned) reference
clone, and the merged module — which equals the pure
`union_and_deconflict_modules` of the two read cells. -/
theorem mergeCall_eq (store : List Node) (pIdx rIdx : Nat)
    (cfg : Option (List (Int × Int))) :
    mergeCall store pIdx rIdx cfg =
      (store ++
        [deepcopy ((store.get? pIdx).getD (Node.module [])),
         (match cfg with
          | some (r0 :: rs) =>
            (LineRangeRemover.visit (r0 :: rs)
                (deepcopy ((store.get? rIdx).getD (Node.module [])))).headD
              (deepcopy ((store.get? rIdx).getD (Node.module [])))
          | _ => deepcopy ((store.get? rIdx).getD (Node.module []))),
         union_and_deconflict_modules ((store.get? pIdx).getD (Node.module []))
           ((store.get? rIdx).getD (Node.module [])) cfg],
       store.length + 2) := by
  have hg0 : ∀ a b : Node,
      ((store ++ [a, b]).get? store.length).getD (Node.module []) = a := fun a b => by
    have := store_get_append_add store [a, b] 0
    simp at this
    simp [this]
  have hg1 : ∀ a b : Node,
      ((store ++ [a, b]).get? (store.length + 1)).getD (Node.module []) = b := fun a b => by
    rw [store_get_append_add store [a, b] 1]; rfl
  have hg2 : ∀ a b c : Node,
      ((store ++ [a, b, c]).get? (store.length + 2)).getD (Node.module []) = c :=
    fun a b c => by
    rw [store_get_append_add store [a, b, c] 2]; rfl
  have hset1 : ∀ (a b v : Node),
      (store ++ [a, b]).set (store.length + 1) v = store ++ [a, v] := fun a b v =>
    store_set_append_add store [a, b] 1 v
  have hset2 : ∀ (a b c v : Node),
      (store ++ [a, b, c]).set (store.length + 2) v = store ++ [a, b, v] :=
    fun a b c v =>
    store_set_append_add store [a, b, c] 2 v
  match cfg with
  | none =>
    simp only [mergeCall, union_and_deconflict_modules, hg0, hg1, hset1,
      List.append_assoc, List.cons_append, List.nil_append, List.singleton_append, hg2, hset2]
  | some [] =>
    simp only [mergeCall, union_and_deconflict_modules, hg0, hg1, hset1,
      List.append_assoc, List.cons_append, List.nil_append, List.singleton_append, hg2, hset2]
  | some (r0 :: rs) =>
    simp only [mergeCall, union_and_deconflict_modules, hg0, hg1, hset1,
      List.append_assoc, List.cons_append, List.nil_append, List.singleton_append, hg2, hset2]

/-- C3: a merge call never writes the caller's cells — after the call both
input trees are exactly as before, for any exclusion-range configuration —
and the returned cell holds the pure merge of the two inputs. -/
theorem c3_merge_preserves_inputs (store : List Node) (pIdx rIdx : Nat)
    (cfg : Option (List (Int × Int)))
    (hp : pIdx < store.length) (hr : rIdx < store.length) :
    ((mergeCall store pIdx rIdx cfg).1.get? pIdx = store.get? pIdx ∧
     (mergeCall store pIdx rIdx cfg).1.get? rIdx = store.get? rIdx) ∧
    (mergeCall store pIdx rIdx cfg).1.get? (mergeCall store pIdx rIdx cfg).2 =
      some (union_and_deconflict_modules ((store.get? pIdx).getD (Node.module []))
        ((store.get? rIdx).getD (Node.module [])) cfg) := by
  rw [mergeCall_eq]
  refine ⟨⟨store_get_append_lt _ _ _ hp, store_get_append_lt _ _ _ hr⟩, ?_⟩
  rw [store_get_append_add store _ 2]
  rfl

/-- C3 witness at a concrete two-cell store. -/
theorem c3_merge_preserves_inputs_witness :
    ((mergeCall c3WitnessStore 0 1 none).1.get? 0 = c3WitnessStore.get? 0 ∧
     (mergeCall c3WitnessStore 0 1 none).1.get? 1 = c3WitnessStore.get? 1) ∧
    (mergeCall c3WitnessStore 0 1 none).1.get? (mergeCall c3WitnessStore 0 1 none).2 =
      some (union_and_deconflict_modules
        ((c3WitnessStore.get? 0).getD (Node.module []))
        ((c3WitnessStore.get? 1).getD (Node.module [])) none) :=
  c3_merge_preserves_inputs c3WitnessStore 0 1 none (by decide) (by decide)
